import Mathlib

/-!
Verification of the redwood release-triage scripts
(`tasks/release/releaseLib.mjs` and its two command handlers).

The JavaScript source is shallowly embedded: pure functions become Lean
functions on `String` / `List Char`; the external command runner (`git`
invocations) is modelled by oracle parameters; JavaScript exceptions
(`TypeError` on dereferencing `null`/`undefined`) become `Except String`;
the JSON built-ins `JSON.parse` / `JSON.stringify(x, null, 2)` are
modelled by an executable tokenizer, parser and printer over a `Json`
inductive (object members are kept in insertion order).
-/

namespace Redwood

/-- JavaScript `\w` character class: `[A-Za-z0-9_]`. -/
def isWordChar (c : Char) : Bool :=
  c.isAlpha || c.isDigit || c = '_'

/-- The whitespace characters recognized by JavaScript `\s` / `String.trim`
(restricted to the ASCII ones plus NBSP, the only ones that can occur in
`git log` output). -/
def isJsSpace (c : Char) : Bool :=
  c = ' ' || c = '\t' || c = '\n' || c = '\r' || c = '\x0b' || c = '\x0c' ||
    c = '\u00A0'

/-! ## Commit triage cache and `purgeData`

`purgeData(data, commits, branch)` from `releaseLib.mjs`:
two passes over the `Map` — the first deletes entries whose hash is not
among the hashes of `commits`, the second deletes the surviving
`needsCherryPick` entries whose commit's `ref` equals `branch`.
-/

/-- A triage cache value: `{ message, needsCherryPick }`. -/
structure TriageEntry where
  message : String
  needsCherryPick : Bool
deriving Repr, DecidableEq

/-- The in-memory cache (a JavaScript `Map` in insertion order): an
association list from commit hash to `TriageEntry`.  A real `Map` has
no duplicate keys; theorems that need that carry a `Nodup` hypothesis. -/
abbrev Cache := List (String × TriageEntry)

/-- The fields of a munged commit record that `purgeData` reads. -/
structure CommitRef where
  hash : String
  ref : String
deriving Repr, DecidableEq

/-- `commits.find((commit) => commit.hash === hash)` followed by
`commit.ref === branch`: does the first commit record carrying `h`
sit on `branch`?  (`false` when no record carries `h`.) -/
def landed (commits : List CommitRef) (branch : String) (h : String) : Bool :=
  match commits.find? (fun c => c.hash == h) with
  | some c => c.ref == branch
  | none => false

/-- One iteration of the second loop of `purgeData`: look the hash up in
`commits`; in JavaScript a failed `find` yields `undefined` and the
subsequent `commit.ref` access throws, which is the `.error` branch here. -/
def purgeStep (commits : List CommitRef) (branch : String) (data : Cache)
    (h : String) : Except String Cache :=
  match commits.find? (fun c => c.hash == h) with
  | none => .error "TypeError: Cannot read properties of undefined"
  | some c =>
    if c.ref == branch then .ok (data.filter (fun e => e.1 != h)) else .ok data

/-- `purgeData(data, commits, branch)`.  First pass: delete every entry
whose hash is absent from `commits.map(hash)`.  Second pass: snapshot the
`needsCherryPick` entries, and delete each whose commit has landed on
`branch`. -/
def purgeData (data : Cache) (commits : List CommitRef) (branch : String) :
    Except String Cache :=
  let commitHashes := commits.map (fun c => c.hash)
  let d1 := data.filter (fun e => commitHashes.contains e.1)
  let needsCherryPick := (d1.filter (fun e => e.2.needsCherryPick)).map (fun e => e.1)
  needsCherryPick.foldlM (purgeStep commits branch) d1

/-- The second loop of `purgeData`, characterized as a filter, provided
every hash it visits occurs in `commits`. -/
theorem foldlM_purgeStep (commits : List CommitRef) (branch : String) :
    ∀ (l : List String) (d : Cache),
      (∀ h ∈ l, h ∈ commits.map (fun c => c.hash)) →
      l.foldlM (purgeStep commits branch) d =
        .ok (d.filter (fun e => !(l.contains e.1 && landed commits branch e.1))) := by
  intro l
  induction l with
  | nil =>
    intro d _
    simp only [List.foldlM_nil, List.contains_nil, Bool.false_and, Bool.not_false,
      List.filter_true]
    rfl
  | cons h t ih =>
    intro d hmem
    have hh : h ∈ commits.map (fun c => c.hash) := hmem h (by simp)
    obtain ⟨c, hc, hch⟩ := List.mem_map.mp hh
    have hfind : ∃ c0, commits.find? (fun c => c.hash == h) = some c0 := by
      have : (commits.find? (fun c => c.hash == h)).isSome := by
        apply List.find?_isSome.mpr
        exact ⟨c, hc, by simp [hch]⟩
      exact Option.isSome_iff_exists.mp this
    obtain ⟨c0, hc0⟩ := hfind
    have hland : landed commits branch h = (c0.ref == branch) := by
      simp [landed, hc0]
    rw [List.foldlM_cons]
    by_cases hrefb : c0.ref = branch
    · have hstep : purgeStep commits branch d h =
          .ok (d.filter (fun e => e.1 != h)) := by
        simp [purgeStep, hc0, hrefb]
      rw [hstep]
      simp only [Bind.bind, Except.bind]
      rw [ih _ (fun x hx => hmem x (by simp [hx]))]
      congr 1
      rw [List.filter_filter]
      apply List.filter_congr
      intro e _
      by_cases he : e.1 = h
      · have hl : landed commits branch h = true := by
          rw [hland]; simp [hrefb]
        simp [he, hl]
      · simp [he, Ne.symm he]
    · have hstep : purgeStep commits branch d h = .ok d := by
        simp [purgeStep, hc0, hrefb]
      rw [hstep]
      simp only [Bind.bind, Except.bind]
      rw [ih _ (fun x hx => hmem x (by simp [hx]))]
      congr 1
      apply List.filter_congr
      intro e _
      by_cases he : e.1 = h
      · have hl : landed commits branch h = false := by
          rw [hland]; simp [hrefb]
        simp [he, hl]
      · simp [he]

/-- On a cache without duplicate keys (a real `Map`), `purgeData` succeeds
and is the filter keeping exactly the entries whose hash occurs in
`commits` and which are not moot landed cherry-picks. -/
theorem purgeData_eq_filter (data : Cache) (commits : List CommitRef)
    (branch : String) (hnd : (data.map Prod.fst).Nodup) :
    purgeData data commits branch =
      .ok (data.filter (fun e =>
        (commits.map (fun c => c.hash)).contains e.1 &&
          !(e.2.needsCherryPick && landed commits branch e.1))) := by
  unfold purgeData
  set hashes := commits.map (fun c => c.hash) with hhashes
  set d1 := data.filter (fun e => hashes.contains e.1) with hd1
  set ncp := (d1.filter (fun e => e.2.needsCherryPick)).map (fun e => e.1)
    with hncp
  have hmem : ∀ h ∈ ncp, h ∈ hashes := by
    intro h hh
    rw [hncp] at hh
    obtain ⟨e, he, hfst⟩ := List.mem_map.mp hh
    have hed1 : e ∈ d1 := (List.mem_filter.mp he).1
    have := (List.mem_filter.mp (hd1 ▸ hed1)).2
    rw [← hfst]
    simpa using this
  rw [foldlM_purgeStep commits branch ncp d1 hmem]
  congr 1
  rw [hd1, List.filter_filter]
  apply List.filter_congr
  intro e hedata
  by_cases hc : hashes.contains e.1
  · have hed1 : e ∈ d1 := by
      rw [hd1]
      exact List.mem_filter.mpr ⟨hedata, hc⟩
    have hcm : e.1 ∈ hashes := by simpa using hc
    have hkey : e.1 ∈ ncp ↔ e.2.needsCherryPick = true := by
      constructor
      · intro hin
        rw [hncp] at hin
        obtain ⟨e2, he2, hfst⟩ := List.mem_map.mp hin
        obtain ⟨he2d1, he2n⟩ := List.mem_filter.mp he2
        have he2data : e2 ∈ data := (List.mem_filter.mp (hd1 ▸ he2d1)).1
        have heq : e2 = e := List.inj_on_of_nodup_map hnd he2data hedata hfst
        rw [heq] at he2n
        simpa using he2n
      · intro hn
        rw [hncp]
        exact List.mem_map.mpr ⟨e, List.mem_filter.mpr ⟨hed1, by simp [hn]⟩, rfl⟩
    by_cases hn : e.2.needsCherryPick = true
    · simp [hcm, hkey.mpr hn, hn, Bool.and_comm]
    · have hb : e.2.needsCherryPick = false := by simpa using hn
      have hnot : e.1 ∉ ncp := fun hin => hn (hkey.mp hin)
      simp [hcm, hnot, hb, Bool.and_comm]
  · have hcm : e.1 ∉ hashes := by simpa using hc
    simp [hcm]

/-- C10: `purgeData` is safe on any cache and commit list: the first pass
keeps only entries whose hash occurs in `commits`, so the second pass's
`commits.find` always succeeds and the `commit.ref` access never
dereferences an absent value — `purgeData` always returns a cache, never
the error branch. -/
theorem purgeData_isOk (data : Cache) (commits : List CommitRef)
    (branch : String) : ∃ r, purgeData data commits branch = .ok r := by
  unfold purgeData
  set hashes := commits.map (fun c => c.hash) with hhashes
  set d1 := data.filter (fun e => hashes.contains e.1) with hd1
  set ncp := (d1.filter (fun e => e.2.needsCherryPick)).map (fun e => e.1)
    with hncp
  have hmem : ∀ h ∈ ncp, h ∈ hashes := by
    intro h hh
    rw [hncp] at hh
    obtain ⟨e, he, hfst⟩ := List.mem_map.mp hh
    have hed1 : e ∈ d1 := (List.mem_filter.mp he).1
    have := (List.mem_filter.mp (hd1 ▸ hed1)).2
    rw [← hfst]
    simpa using this
  exact ⟨_, foldlM_purgeStep commits branch ncp d1 hmem⟩

/-- C1: after `purgeData(data, commits, branch)` on a cache mapping
(no duplicate keys): (a) every entry whose hash does not occur among the
hashes of `commits` has been removed, (b) every `needsCherryPick = true`
entry whose corresponding commit record (the one `commits.find` locates)
has `ref = branch` has been removed, and (c) every other entry is retained
with its value unchanged. -/
theorem purgeData_prune_spec (data : Cache) (commits : List CommitRef)
    (branch : String) (hnd : (data.map Prod.fst).Nodup) :
    ∃ result, purgeData data commits branch = .ok result ∧
      (∀ e ∈ result, e.1 ∈ commits.map (fun c => c.hash)) ∧
      (∀ e ∈ result,
        ¬(e.2.needsCherryPick = true ∧ landed commits branch e.1 = true)) ∧
      (∀ e ∈ data, e.1 ∈ commits.map (fun c => c.hash) →
        ¬(e.2.needsCherryPick = true ∧ landed commits branch e.1 = true) →
        e ∈ result) := by
  refine ⟨_, purgeData_eq_filter data commits branch hnd, ?_, ?_, ?_⟩
  · intro e he
    have := (List.mem_filter.mp he).2
    simp only [Bool.and_eq_true] at this
    simpa using this.1
  · intro e he hcontra
    have := (List.mem_filter.mp he).2
    simp only [Bool.and_eq_true] at this
    have h2 := this.2
    simp [hcontra.1, hcontra.2] at h2
  · intro e he hhash hcontra
    apply List.mem_filter.mpr
    refine ⟨he, ?_⟩
    simp only [Bool.and_eq_true]
    constructor
    · simpa using hhash
    · by_cases hn : e.2.needsCherryPick = true
      · rcases Bool.eq_false_or_eq_true (landed commits branch e.1) with h | h
        · exact absurd ⟨hn, h⟩ hcontra
        · simp [h]
      · have : e.2.needsCherryPick = false := by simpa using hn
        simp [this]

/-- C1 witness: a concrete three-entry cache against two commits; the
entry with an absent hash and the landed `needsCherryPick` entry go, the
rest stays. -/
theorem purgeData_prune_spec_witness :
    ∃ result,
      purgeData
        [("aaa111222", ⟨"fix: x", true⟩), ("bbb333444", ⟨"fix: y", false⟩),
          ("ccc555666", ⟨"fix: z", true⟩)]
        [⟨"aaa111222", "next"⟩, ⟨"bbb333444", "main"⟩] "next" = .ok result ∧
      (∀ e ∈ result,
        e.1 ∈ List.map (fun c => c.hash)
          [CommitRef.mk "aaa111222" "next", CommitRef.mk "bbb333444" "main"]) ∧
      (∀ e ∈ result,
        ¬(e.2.needsCherryPick = true ∧
          landed [⟨"aaa111222", "next"⟩, ⟨"bbb333444", "main"⟩] "next" e.1 = true)) ∧
      (∀ e ∈ ([("aaa111222", ⟨"fix: x", true⟩), ("bbb333444", ⟨"fix: y", false⟩),
          ("ccc555666", ⟨"fix: z", true⟩)] : Cache),
        e.1 ∈ List.map (fun c => c.hash)
          [CommitRef.mk "aaa111222" "next", CommitRef.mk "bbb333444" "main"] →
        ¬(e.2.needsCherryPick = true ∧
          landed [⟨"aaa111222", "next"⟩, ⟨"bbb333444", "main"⟩] "next" e.1 = true) →
        e ∈ result) :=
  purgeData_prune_spec
    [("aaa111222", ⟨"fix: x", true⟩), ("bbb333444", ⟨"fix: y", false⟩),
      ("ccc555666", ⟨"fix: z", true⟩)]
    [⟨"aaa111222", "next"⟩, ⟨"bbb333444", "main"⟩] "next" (by decide)

/-- C6: on a cache mapping (no duplicate keys), running `purgeData` a
second time with the same commit list and target branch leaves the cache
unchanged: the two-run composite equals the single run. -/
theorem purgeData_idempotent (data : Cache) (commits : List CommitRef)
    (branch : String) (hnd : (data.map Prod.fst).Nodup) :
    (purgeData data commits branch).bind
        (fun d2 => purgeData d2 commits branch) =
      purgeData data commits branch := by
  rw [purgeData_eq_filter data commits branch hnd]
  have hnd2 :
      ((data.filter (fun e =>
        (commits.map (fun c => c.hash)).contains e.1 &&
          !(e.2.needsCherryPick && landed commits branch e.1))).map
        Prod.fst).Nodup := by
    apply List.Nodup.sublist _ hnd
    exact List.Sublist.map Prod.fst (List.filter_sublist data)
  show Except.bind _ _ = _
  simp only [Except.bind]
  rw [purgeData_eq_filter _ commits branch hnd2]
  congr 1
  rw [List.filter_filter]
  apply List.filter_congr
  intro e _
  simp [Bool.and_self]

/-- C6 witness: the concrete run of `purgeData` from the C1 scenario is a
fixed point of a second run. -/
theorem purgeData_idempotent_witness :
    (purgeData
        [("aaa111222", ⟨"fix: x", true⟩), ("bbb333444", ⟨"fix: y", false⟩)]
        [⟨"aaa111222", "next"⟩] "next").bind
      (fun d2 => purgeData d2 [⟨"aaa111222", "next"⟩] "next") =
      purgeData
        [("aaa111222", ⟨"fix: x", true⟩), ("bbb333444", ⟨"fix: y", false⟩)]
        [⟨"aaa111222", "next"⟩] "next" :=
  purgeData_idempotent
    [("aaa111222", ⟨"fix: x", true⟩), ("bbb333444", ⟨"fix: y", false⟩)]
    [⟨"aaa111222", "next"⟩] "next" (by decide)

/-! ## Commit parser (`parseCommit`)

```js
const match = commit.match(/\w{9}/)
const [hash] = match
const message = commit.slice(match.index + 10)
const prMatch = message.match(PR)
const pr = prMatch?.groups.pr
```
When the regex finds no match, `commit.match` returns `null` and the
destructuring `const [hash] = match` throws a `TypeError`. -/

/-- First match of the regex `#(?<pr>\d+)` (constant `PR` in the source):
the maximal digit run following the first `#` that is followed by at
least one digit. -/
def prMatch : List Char → Option (List Char)
  | [] => none
  | c :: cs =>
    if c = '#' then
      let ds := cs.takeWhile Char.isDigit
      if ds.isEmpty then prMatch cs else some ds
    else prMatch cs

/-- Do the first nine characters of `l` exist and consist of word
characters only? -/
def nineRunHere (l : List Char) : Bool :=
  (l.take 9).length == 9 && (l.take 9).all isWordChar

/-- Leftmost match of the regex `\w{9}`: start index and the nine matched
characters.  The JS engine tries start positions left to right; the
pattern is fixed-width, so no backtracking subtleties arise. -/
def firstNineRun : List Char → Option (Nat × List Char)
  | [] => none
  | c :: cs =>
    if nineRunHere (c :: cs) then some (0, (c :: cs).take 9)
    else (firstNineRun cs).map (fun p => (p.1 + 1, p.2))

/-- Does the string contain a run of nine word characters (i.e. does
`/\w{9}/` match)? -/
def hasNineWordRun : List Char → Bool
  | [] => false
  | c :: cs => nineRunHere (c :: cs) || hasNineWordRun cs

/-- The parsed commit record `{ hash, message, pr }`. -/
structure ParsedCommit where
  hash : String
  message : String
  pr : Option String
deriving Repr, DecidableEq

/-- `parseCommit(commit)` from `releaseLib.mjs`.  The `.error` branch is
the `TypeError` thrown by `const [hash] = match` when `match` is `null`. -/
def parseCommit (commit : String) : Except String ParsedCommit :=
  match firstNineRun commit.data with
  | none => .error "TypeError: match is null and cannot be destructured"
  | some (i, hash) =>
    let message := commit.data.drop (i + 10)
    .ok { hash := ⟨hash⟩, message := ⟨message⟩,
          pr := (prMatch message).map (fun l => ⟨l⟩) }

/-- The regex scan and the Boolean run test agree. -/
theorem firstNineRun_eq_none_iff (l : List Char) :
    firstNineRun l = none ↔ hasNineWordRun l = false := by
  induction l with
  | nil => simp [firstNineRun, hasNineWordRun]
  | cons c cs ih =>
    by_cases hw : nineRunHere (c :: cs) = true
    · simp [firstNineRun, hasNineWordRun, hw]
    · have hw2 : nineRunHere (c :: cs) = false := by simpa using hw
      simp [firstNineRun, hasNineWordRun, hw2, ih]

/-- C3 counterexample: the graph-connector line `"| o"` contains no run of
nine word characters, and `parseCommit` raises the modelled `TypeError`
instead of returning an absent result. -/
theorem parseCommit_no_hash_counterexample :
    hasNineWordRun "| o".data = false ∧
      parseCommit "| o" =
        .error "TypeError: match is null and cannot be destructured" := by
  exact ⟨by decide, rfl⟩

/-- C3 amended: for every input line containing no run of nine word
characters, `parseCommit` throws (the `null` returned by `commit.match`
is destructured, raising a `TypeError`); it does not return a null/absent
result, so callers must filter out non-commit lines before calling it. -/
theorem parseCommit_no_hash_throws (commit : String)
    (h : hasNineWordRun commit.data = false) :
    parseCommit commit =
      .error "TypeError: match is null and cannot be destructured" := by
  unfold parseCommit
  rw [(firstNineRun_eq_none_iff commit.data).mpr h]

/-- C3 amended witness: the concrete non-commit line `"|\"` errors. -/
theorem parseCommit_no_hash_throws_witness :
    hasNineWordRun "|\\".data = false ∧
      parseCommit "|\\" =
        .error "TypeError: match is null and cannot be destructured" :=
  ⟨by decide, parseCommit_no_hash_throws "|\\" (by decide)⟩

/-! ## `sanitizeMessage`

```js
message = message.replace('[', '\\[')
message = message.replace(']', '\\]')
```
`String.prototype.replace` with a string pattern replaces only the FIRST
occurrence. -/

/-- JavaScript `String.prototype.replace` with a single-character string
pattern and a replacement free of `$`-patterns: replace the first
occurrence only. -/
def replaceFirst (target : Char) (repl : List Char) : List Char → List Char
  | [] => []
  | c :: cs => if c = target then repl ++ cs else c :: replaceFirst target repl cs

/-- `sanitizeMessage(message)` from `releaseLib.mjs`. -/
def sanitizeMessage (message : String) : String :=
  ⟨replaceFirst ']' ['\\', ']'] (replaceFirst '[' ['\\', '['] message.data)⟩

/-- Escape a single character the way the spec sentence describes the
whole sanitization: brackets get a backslash, the rest is untouched. -/
def escChar (c : Char) : List Char :=
  if c = '[' ∨ c = ']' then ['\\', c] else [c]

/-- What the spec sentence describes: prefix a backslash to EVERY
square-bracket character of the message. -/
def escapeAllBrackets (message : String) : String :=
  ⟨message.data.flatMap escChar⟩

theorem replaceFirst_not_mem (target : Char) (repl : List Char) :
    ∀ l : List Char, target ∉ l → replaceFirst target repl l = l := by
  intro l
  induction l with
  | nil => intro _; rfl
  | cons c cs ih =>
    intro hnm
    have hc : ¬c = target := fun h => hnm (h ▸ List.mem_cons_self c cs)
    have hcs : target ∉ cs := fun h => hnm (List.mem_cons_of_mem c h)
    simp [replaceFirst, hc, ih hcs]

theorem escB_no_brackets :
    ∀ l : List Char, '[' ∉ l → ']' ∉ l → l.flatMap escChar = l := by
  intro l
  induction l with
  | nil => intro _ _; rfl
  | cons c cs ih =>
    intro hl hr
    have hc1 : ¬c = '[' := fun h => hl (h ▸ List.mem_cons_self c cs)
    have hc2 : ¬c = ']' := fun h => hr (h ▸ List.mem_cons_self c cs)
    have h1 : '[' ∉ cs := fun h => hl (List.mem_cons_of_mem c h)
    have h2 : ']' ∉ cs := fun h => hr (List.mem_cons_of_mem c h)
    rw [List.flatMap_cons, ih h1 h2, escChar, if_neg (by tauto)]
    rfl

theorem replaceFirst_close_eq_escB :
    ∀ l : List Char, '[' ∉ l → l.count ']' ≤ 1 →
      replaceFirst ']' ['\\', ']'] l = l.flatMap escChar := by
  intro l
  induction l with
  | nil => intro _ _; rfl
  | cons c cs ih =>
    intro hl hcount
    have h1 : '[' ∉ cs := fun h => hl (List.mem_cons_of_mem c h)
    rw [List.flatMap_cons, replaceFirst]
    by_cases hc : c = ']'
    · have hz : cs.count ']' = 0 := by
        rw [hc] at hcount
        rw [List.count_cons] at hcount
        simp at hcount
        omega
      have h2 : ']' ∉ cs := List.count_eq_zero.mp hz
      rw [if_pos hc, escB_no_brackets cs h1 h2, escChar, if_pos (Or.inr hc), hc]
    · have hcnt : cs.count ']' ≤ 1 := by
        rw [List.count_cons] at hcount
        omega
      have hc1 : ¬c = '[' := fun h => hl (h ▸ List.mem_cons_self c cs)
      rw [if_neg hc, ih h1 hcnt, escChar, if_neg (by tauto)]
      rfl

theorem replaceFirst_open_eq_escB :
    ∀ l : List Char, ']' ∉ l → l.count '[' ≤ 1 →
      replaceFirst '[' ['\\', '['] l = l.flatMap escChar := by
  intro l
  induction l with
  | nil => intro _ _; rfl
  | cons c cs ih =>
    intro hr hcount
    have h2 : ']' ∉ cs := fun h => hr (List.mem_cons_of_mem c h)
    rw [List.flatMap_cons, replaceFirst]
    by_cases hc : c = '['
    · have hz : cs.count '[' = 0 := by
        rw [hc] at hcount
        rw [List.count_cons] at hcount
        simp at hcount
        omega
      have h1 : '[' ∉ cs := List.count_eq_zero.mp hz
      rw [if_pos hc, escB_no_brackets cs h1 h2, escChar, if_pos (Or.inl hc), hc]
    · have hcnt : cs.count '[' ≤ 1 := by
        rw [List.count_cons] at hcount
        omega
      have hc2 : ¬c = ']' := fun h => hr (h ▸ List.mem_cons_self c cs)
      rw [if_neg hc, ih h2 hcnt, escChar, if_neg (by tauto)]
      rfl

/-- C8 counterexample: on a message with two opening brackets only the
first is escaped, so `sanitizeMessage` differs from escaping every
bracket occurrence. -/
theorem sanitizeMessage_counterexample :
    sanitizeMessage "fix [a][b]" ≠ escapeAllBrackets "fix [a][b]" ∧
      sanitizeMessage "fix [a][b]" = "fix \\[a\\][b]" := by
  constructor
  · decide
  · decide

/-- C8 amended: `sanitizeMessage` escapes only the FIRST occurrence of
`[` and the FIRST occurrence of `]`; hence on messages with at most one
of each it coincides with escaping every bracket. -/
theorem sanitizeMessage_escapes_first (message : String)
    (hopen : message.data.count '[' ≤ 1) (hclose : message.data.count ']' ≤ 1) :
    sanitizeMessage message = escapeAllBrackets message := by
  unfold sanitizeMessage escapeAllBrackets
  congr 1
  generalize message.data = l at *
  induction l with
  | nil => rfl
  | cons c cs ih =>
    rw [List.flatMap_cons]
    by_cases hc1 : c = '['
    · have hz : cs.count '[' = 0 := by
        rw [hc1] at hopen
        rw [List.count_cons] at hopen
        simp at hopen
        omega
      have h1 : '[' ∉ cs := List.count_eq_zero.mp hz
      have hcnt : cs.count ']' ≤ 1 := by
        rw [List.count_cons] at hclose
        omega
      rw [show replaceFirst '[' ['\\', '['] (c :: cs) = '\\' :: '[' :: cs by
        rw [replaceFirst, if_pos hc1]; rfl]
      rw [show replaceFirst ']' ['\\', ']'] ('\\' :: '[' :: cs) =
          '\\' :: '[' :: replaceFirst ']' ['\\', ']'] cs by
        rw [replaceFirst, if_neg (by decide), replaceFirst, if_neg (by decide)]]
      rw [replaceFirst_close_eq_escB cs h1 hcnt, escChar, if_pos (Or.inl hc1), hc1]
      rfl
    · by_cases hc2 : c = ']'
      · have hz : cs.count ']' = 0 := by
          rw [hc2] at hclose
          rw [List.count_cons] at hclose
          simp at hclose
          omega
        have h2 : ']' ∉ cs := List.count_eq_zero.mp hz
        have hcnt : cs.count '[' ≤ 1 := by
          rw [List.count_cons] at hopen
          omega
        rw [show replaceFirst '[' ['\\', '['] (c :: cs) =
            c :: replaceFirst '[' ['\\', '['] cs by
          rw [replaceFirst, if_neg (by rw [hc2]; decide)]]
        rw [show replaceFirst ']' ['\\', ']']
              (c :: replaceFirst '[' ['\\', '['] cs) =
            '\\' :: ']' :: replaceFirst '[' ['\\', '['] cs by
          rw [replaceFirst, if_pos hc2]; rfl]
        rw [replaceFirst_open_eq_escB cs h2 hcnt, escChar, if_pos (Or.inr hc2), hc2]
        rfl
      · have hco : cs.count '[' ≤ 1 := by
          rw [List.count_cons] at hopen
          omega
        have hcc : cs.count ']' ≤ 1 := by
          rw [List.count_cons] at hclose
          omega
        rw [show replaceFirst '[' ['\\', '['] (c :: cs) =
            c :: replaceFirst '[' ['\\', '['] cs by
          rw [replaceFirst, if_neg hc1]]
        rw [show replaceFirst ']' ['\\', ']']
              (c :: replaceFirst '[' ['\\', '['] cs) =
            c :: replaceFirst ']' ['\\', ']'] (replaceFirst '[' ['\\', '['] cs) by
          rw [replaceFirst, if_neg hc2]]
        rw [ih hco hcc, escChar, if_neg (by tauto)]
        rfl

/-- C8 amended witness: a message with one bracket pair is fully escaped. -/
theorem sanitizeMessage_escapes_first_witness :
    ("fix: x [skip ci]".data.count '[' ≤ 1) ∧
      ("fix: x [skip ci]".data.count ']' ≤ 1) ∧
      sanitizeMessage "fix: x [skip ci]" = escapeAllBrackets "fix: x [skip ci]" :=
  ⟨by decide, by decide,
    sanitizeMessage_escapes_first "fix: x [skip ci]" (by decide) (by decide)⟩

/-! ## Symmetric-difference fetcher and the triage-next emptiness check

```js
return (await $`git log ${options} ${leftRef}...${rightRef}`).stdout
  .trim()
  .split('\n')
```
and in the `triage-next` handler:
```js
if (stdout.length === 1 && stdout[0] === '') { ... }
```
-/

/-- JavaScript `String.prototype.trim` (over the `isJsSpace` class). -/
def jsTrim (s : String) : String :=
  ⟨((s.data.dropWhile isJsSpace).reverse.dropWhile isJsSpace).reverse⟩

/-- JavaScript `String.prototype.split` with a single-character separator:
on the empty string it yields one empty piece, never the empty list. -/
def splitChar (sep : Char) : List Char → List (List Char)
  | [] => [[]]
  | c :: cs =>
    if c = sep then [] :: splitChar sep cs
    else
      match splitChar sep cs with
      | [] => [[c]]
      | h :: t => (c :: h) :: t

/-- `getSymmetricDifference(leftRef, rightRef, { options })`, as a function
of the raw standard output of the underlying `git log` call (the external
command runner is the black-box boundary). -/
def getSymmetricDifference (stdoutRaw : String) : List String :=
  (splitChar '\n' (jsTrim stdoutRaw).data).map (fun l => (⟨l⟩ : String))

/-- The `triage-next` orchestrator's "branches are the same" test:
`stdout.length === 1 && stdout[0] === ''`. -/
def branchesAreSame (stdout : List String) : Bool :=
  stdout.length == 1 && stdout.getD 0 "\n" == ""

/-- C7: when the log command's output is empty (trims to the empty
string), the fetcher returns the one-element list holding the empty
string — not the empty list — and the orchestrator's check recognizes
exactly that shape. -/
theorem getSymmetricDifference_empty (stdoutRaw : String)
    (h : jsTrim stdoutRaw = "") :
    getSymmetricDifference stdoutRaw = [""] ∧
      getSymmetricDifference stdoutRaw ≠ [] ∧
      branchesAreSame (getSymmetricDifference stdoutRaw) = true ∧
      (∀ xs : List String, branchesAreSame xs = true ↔ xs = [""]) := by
  have hsplit : getSymmetricDifference stdoutRaw = [""] := by
    unfold getSymmetricDifference
    rw [h]
    rfl
  have hshape : ∀ xs : List String, branchesAreSame xs = true ↔ xs = [""] := by
    intro xs
    match xs with
    | [] => simp [branchesAreSame]
    | [a] =>
      constructor
      · intro hb
        have : a = "" := by
          simpa [branchesAreSame] using hb
        rw [this]
      · intro hb
        rw [hb]
        rfl
    | a :: b :: t => simp [branchesAreSame]
  exact ⟨hsplit, by rw [hsplit]; exact fun hc => List.noConfusion hc,
    by rw [hsplit]; rfl, hshape⟩

/-- C7 witness: a concrete all-whitespace `git log` output. -/
theorem getSymmetricDifference_empty_witness :
    jsTrim "  \n " = "" ∧
      getSymmetricDifference "  \n " = [""] ∧
      getSymmetricDifference "  \n " ≠ [] ∧
      branchesAreSame (getSymmetricDifference "  \n ") = true ∧
      (∀ xs : List String, branchesAreSame xs = true ↔ xs = [""]) :=
  ⟨by decide, getSymmetricDifference_empty "  \n " (by decide)⟩

/-! ## Ref classifier (`mungeCommits`)

The per-line classification loop of `mungeCommits`.  The two `git`
round-trips it performs — `getCommitMessage(hash)` and
`isCommitInRef(ref, message)` — are modelled by the oracle parameters
`msgOf` and `inRef`.  The context object `this` (`from`, `to` after its
array normalization, `refsToColors` with optional chaining) is the
`MungeCtx` structure.  `chalk` decorations are modelled symbolically by
`Pretty`. -/

/-- `MARKS`: `git log --graph` pure-UI line heads. -/
def MARKS : List String := ["o", " /", "|\\", "| o", "|\\|"]

/-- `isLineUI(line)`: `MARKS.some((mark) => line.startsWith(mark))`. -/
def isLineUI (line : String) : Bool :=
  MARKS.any (fun mark => mark.data.isPrefixOf line.data)

/-- One candidate position for the regex `\s(?<hash>\w{40})\s` (constant
`HASH`): a whitespace character, forty word characters, a whitespace
character. -/
def hashHere (l : List Char) : Option (List Char) :=
  match l with
  | [] => none
  | c :: rest =>
    if isJsSpace c && ((rest.take 40).length == 40) &&
        (rest.take 40).all isWordChar then
      match rest.drop 40 with
      | [] => none
      | d :: _ => if isJsSpace d then some (rest.take 40) else none
    else none

/-- Leftmost match of the `HASH` regex: the captured forty characters. -/
def matchHASH : List Char → Option (List Char)
  | [] => none
  | c :: cs =>
    match hashHere (c :: cs) with
    | some h => some h
    | none => matchHASH cs

/-- Is `pat` a contiguous substring of the list? -/
def listContainsSub (pat : List Char) : List Char → Bool
  | [] => pat.isEmpty
  | c :: cs => pat.isPrefixOf (c :: cs) || listContainsSub pat cs

/-- Scan for `" into next"` reachable from here through the `.*` of the
regex `/Merge branch (?<branch>.*) into next/` (the dot does not cross a
line terminator). -/
def scanIntoNext : List Char → Bool
  | [] => false
  | c :: cs =>
    " into next".data.isPrefixOf (c :: cs) ||
      (if c = '\n' then false else scanIntoNext cs)

/-- `/Merge branch (?<branch>.*) into next/.test(line)`. -/
def mergeBranchIntoNext : List Char → Bool
  | [] => false
  | c :: cs =>
    (if "Merge branch ".data.isPrefixOf (c :: cs) then
        scanIntoNext ((c :: cs).drop 13)
      else false) ||
      mergeBranchIntoNext cs

/-- `isCommitChore(line)` from `releaseLib.mjs`. -/
def isCommitChore (line : String) : Bool :=
  mergeBranchIntoNext line.data ||
    listContainsSub "chore: update yarn.lock".data line.data ||
    listContainsSub "Version docs".data line.data ||
    listContainsSub "chore: update all contributors".data line.data

/-- JavaScript line terminators (what `.` in a regex does not match). -/
def isLineTerminator (c : Char) : Bool :=
  c = '\n' || c = '\r' || c = '\u2028' || c = '\u2029'

/-- `ANNOTATED_TAG_MESSAGE.test(message)` with
`ANNOTATED_TAG_MESSAGE = /^v\d.\d.\d$/` — note the unescaped dots: the
two middle separators may be ANY non-line-terminator character. -/
def annotatedTagTest (s : String) : Bool :=
  match s.data with
  | [v, d1, x1, d2, x2, d3] =>
    v = 'v' && d1.isDigit && !isLineTerminator x1 && d2.isDigit &&
      !isLineTerminator x2 && d3.isDigit
  | _ => false

/-- The exact `v<major>.<minor>.<patch>` release-tag shape the spec
describes: literal dots between single digits. -/
def isStrictReleaseTag (s : String) : Bool :=
  match s.data with
  | [v, d1, x1, d2, x2, d3] =>
    v = 'v' && d1.isDigit && x1 = '.' && d2.isDigit && x2 = '.' && d3.isDigit
  | _ => false

/-- A message of the exact release-tag shape passes the source's
(dot-liberal) regex. -/
theorem strictTag_annotated (s : String)
    (h : isStrictReleaseTag s = true) : annotatedTagTest s = true := by
  unfold isStrictReleaseTag at h
  unfold annotatedTagTest
  split at h
  case h_1 v d1 x1 d2 x2 d3 heq =>
    simp only [Bool.and_eq_true] at h ⊢
    obtain ⟨⟨⟨⟨⟨hv, h1⟩, hx1⟩, h2⟩, hx2⟩, h3⟩ := h
    have hx1e : x1 = '.' := of_decide_eq_true hx1
    have hx2e : x2 = '.' := of_decide_eq_true hx2
    subst hx1e hx2e
    exact ⟨⟨⟨⟨⟨hv, h1⟩, by decide⟩, h2⟩, by decide⟩, h3⟩
  case h_2 => exact absurd h (by simp)

/-- The display decoration of a munged record: `chalk` is modelled
symbolically.  `refColor (some c)` is `chalk.dim.hex(c)`, `refColor none`
is `chalk.dim.blue` (no entry in `refsToColors`). -/
inductive Pretty where
  | plain (line : String)
  | dim (line : String)
  | refColor (color : Option String) (line : String)
deriving Repr, DecidableEq

/-- The commit record built by the `mungeCommits` loop.  `hash`,
`message` and `pr` stay absent (`none`) on UI lines. -/
structure MungedCommit where
  line : String
  ref : String
  type : String
  pretty : Pretty
  hash : Option String := none
  message : Option String := none
  pr : Option String := none
deriving Repr, DecidableEq

/-- The `this` context of `mungeCommits` after `this.to` has been
normalized to an array: source ref, destination refs, and the optional
destination-color table. -/
structure MungeCtx where
  fromRef : String
  toRefs : List String
  refsToColors : String → Option String

/-- The body of the `for (const line of stdout)` loop of `mungeCommits`,
for one line.  The `.error` branch models the `TypeError` thrown by
`line.match(HASH).groups` when the `HASH` regex does not match. -/
def mungeLine (msgOf : String → String) (inRef : String → String → Bool)
    (ctx : MungeCtx) (line : String) : Except String MungedCommit :=
  let c0 : MungedCommit :=
    { line := line, ref := ctx.fromRef, type := "commit", pretty := .plain line }
  if isLineUI line then
    .ok { c0 with type := "ui", pretty := .dim line }
  else
    match matchHASH line.data with
    | none => .error "TypeError: Cannot read properties of null"
    | some hashChars =>
      let hash : String := ⟨hashChars⟩
      let msg := msgOf hash
      let c1 : MungedCommit :=
        { c0 with hash := some hash, message := some msg,
                  pr := (prMatch msg.data).map (fun l => (⟨l⟩ : String)) }
      if isCommitChore line then
        .ok { c1 with type := "chore", pretty := .dim line }
      else if annotatedTagTest msg then
        .ok { c1 with ref := msg, type := "tag", pretty := .dim line }
      else
        .ok (ctx.toRefs.foldl
          (fun c ref =>
            if inRef ref (sanitizeMessage msg) then
              { c with ref := ref, pretty := .refColor (ctx.refsToColors ref) line }
            else c)
          c1)

/-- `mungeCommits(stdout)`: the loop over all lines. -/
def mungeCommits (msgOf : String → String) (inRef : String → String → Bool)
    (ctx : MungeCtx) (stdout : List String) :
    Except String (List MungedCommit) :=
  stdout.mapM (mungeLine msgOf inRef ctx)

/-- C2: on a non-UI, non-chore line whose looked-up message has the exact
`v<major>.<minor>.<patch>` shape, the classifier yields `type = "tag"`
with `ref` equal to the message itself — and the result does not depend
on the destination-ref membership oracle `inRef` (the scan is not run):
`inRef` is universally quantified yet absent from the right-hand side. -/
theorem mungeLine_tag_step (msgOf : String → String)
    (inRef : String → String → Bool) (ctx : MungeCtx) (line : String)
    (hashChars : List Char)
    (hui : isLineUI line = false)
    (hh : matchHASH line.data = some hashChars)
    (hch : isCommitChore line = false)
    (htag : isStrictReleaseTag (msgOf ⟨hashChars⟩) = true) :
    mungeLine msgOf inRef ctx line =
      .ok { line := line, ref := msgOf ⟨hashChars⟩, type := "tag",
            pretty := .dim line, hash := some ⟨hashChars⟩,
            message := some (msgOf ⟨hashChars⟩),
            pr := (prMatch (msgOf ⟨hashChars⟩).data).map
              (fun l => (⟨l⟩ : String)) } := by
  unfold mungeLine
  rw [if_neg (by simp [hui]), hh]
  simp only
  rw [if_neg (by simp [hch]), if_pos (strictTag_annotated _ htag)]

/-- C2 witness: a concrete log line carrying a forty-character hash whose
message is `v1.2.3`, with an oracle that would match every destination
ref — the tag step still wins. -/
theorem mungeLine_tag_step_witness :
    mungeLine (fun _ => "v1.2.3") (fun _ _ => true)
        ⟨"main", ["next"], fun _ => none⟩
        "< aaaaaaaaaabbbbbbbbbbccccccccccdddddddddd v1.2.3" =
      .ok { line := "< aaaaaaaaaabbbbbbbbbbccccccccccdddddddddd v1.2.3",
            ref := "v1.2.3", type := "tag",
            pretty := .dim "< aaaaaaaaaabbbbbbbbbbccccccccccdddddddddd v1.2.3",
            hash := some "aaaaaaaaaabbbbbbbbbbccccccccccdddddddddd",
            message := some "v1.2.3", pr := none } := by
  have h := mungeLine_tag_step (fun _ => "v1.2.3") (fun _ _ => true)
    ⟨"main", ["next"], fun _ => none⟩
    "< aaaaaaaaaabbbbbbbbbbccccccccccdddddddddd v1.2.3"
    "aaaaaaaaaabbbbbbbbbbccccccccccdddddddddd".data
    (by decide) (by decide) (by decide) (by decide)
  exact h

/-- When no destination ref matches, the scan loop leaves the record
untouched. -/
theorem refScan_no_match (inRef : String → String → Bool)
    (colors : String → Option String) (msg line : String) :
    ∀ (refs : List String) (c : MungedCommit),
      refs.filter (fun t => inRef t (sanitizeMessage msg)) = [] →
      refs.foldl
        (fun c ref =>
          if inRef ref (sanitizeMessage msg) then
            { c with ref := ref, pretty := .refColor (colors ref) line }
          else c) c = c := by
  intro refs
  induction refs with
  | nil => intro c _; rfl
  | cons t rest ih =>
    intro c hnil
    have hall := List.filter_eq_nil_iff.mp hnil
    have ht : ¬inRef t (sanitizeMessage msg) = true := by
      simpa using hall t (by simp)
    rw [List.foldl_cons, if_neg ht]
    exact ih c (List.filter_eq_nil_iff.mpr
      (fun a ha => by simpa using hall a (by simp [ha])))

/-- The destination-ref scan loop: the record ends on the LAST matching
ref, with that ref's display color; the other fields survive. -/
theorem refScan_last_match (inRef : String → String → Bool)
    (colors : String → Option String) (msg line : String) :
    ∀ (refs : List String) (c : MungedCommit) (r : String),
      (refs.filter (fun t => inRef t (sanitizeMessage msg))).getLast? = some r →
      refs.foldl
        (fun c ref =>
          if inRef ref (sanitizeMessage msg) then
            { c with ref := ref, pretty := .refColor (colors ref) line }
          else c) c =
        { c with ref := r, pretty := .refColor (colors r) line } := by
  intro refs
  induction refs with
  | nil => intro c r hr; simp at hr
  | cons t rest ih =>
    intro c r hr
    by_cases ht : inRef t (sanitizeMessage msg) = true
    · rw [List.foldl_cons, if_pos ht]
      rw [List.filter_cons, if_pos ht] at hr
      cases hrest : rest.filter (fun t => inRef t (sanitizeMessage msg)) with
      | nil =>
        rw [hrest] at hr
        simp at hr
        rw [refScan_no_match inRef colors msg line rest _ hrest, hr]
      | cons x xs =>
        rw [hrest, List.getLast?_cons_cons, ← hrest] at hr
        rw [ih _ r hr]
    · rw [List.foldl_cons, if_neg ht]
      rw [List.filter_cons, if_neg ht] at hr
      exact ih c r hr

/-- C9: on a line that stays `type = "commit"` past the tag check, the
destination-ref scan does not break on first match: the final `ref` (and
display color) is that of the LAST destination ref, in iteration order,
whose history contains the sanitized message. -/
theorem mungeLine_last_match_wins (msgOf : String → String)
    (inRef : String → String → Bool) (ctx : MungeCtx) (line : String)
    (hashChars : List Char) (r : String)
    (hui : isLineUI line = false)
    (hh : matchHASH line.data = some hashChars)
    (hch : isCommitChore line = false)
    (htag : annotatedTagTest (msgOf ⟨hashChars⟩) = false)
    (hlast : (ctx.toRefs.filter
        (fun t => inRef t (sanitizeMessage (msgOf ⟨hashChars⟩)))).getLast? =
      some r) :
    mungeLine msgOf inRef ctx line =
      .ok { line := line, ref := r, type := "commit",
            pretty := .refColor (ctx.refsToColors r) line,
            hash := some ⟨hashChars⟩, message := some (msgOf ⟨hashChars⟩),
            pr := (prMatch (msgOf ⟨hashChars⟩).data).map
              (fun l => (⟨l⟩ : String)) } := by
  unfold mungeLine
  rw [if_neg (by simp [hui]), hh]
  simp only
  rw [if_neg (by simp [hch]), if_neg (by simp [htag])]
  rw [refScan_last_match inRef ctx.refsToColors (msgOf ⟨hashChars⟩) line
    ctx.toRefs _ r hlast]

/-- C9 witness: both `"next"` and `"release/minor/v3.6.0"` contain the
message; the record ends on the second (last) ref and its color. -/
theorem mungeLine_last_match_wins_witness :
    mungeLine (fun _ => "fix: thing") (fun _ _ => true)
        ⟨"next", ["next", "release/minor/v3.6.0"],
          fun ref => if ref = "release/minor/v3.6.0" then some "#ab12cd" else none⟩
        "< aaaaaaaaaabbbbbbbbbbccccccccccdddddddddd fix: thing" =
      .ok { line := "< aaaaaaaaaabbbbbbbbbbccccccccccdddddddddd fix: thing",
            ref := "release/minor/v3.6.0", type := "commit",
            pretty := .refColor (some "#ab12cd")
              "< aaaaaaaaaabbbbbbbbbbccccccccccdddddddddd fix: thing",
            hash := some "aaaaaaaaaabbbbbbbbbbccccccccccdddddddddd",
            message := some "fix: thing", pr := none } := by
  have h := mungeLine_last_match_wins (fun _ => "fix: thing") (fun _ _ => true)
    ⟨"next", ["next", "release/minor/v3.6.0"],
      fun ref => if ref = "release/minor/v3.6.0" then some "#ab12cd" else none⟩
    "< aaaaaaaaaabbbbbbbbbbccccccccccdddddddddd fix: thing"
    "aaaaaaaaaabbbbbbbbbbccccccccccdddddddddd".data
    "release/minor/v3.6.0"
    (by decide) (by decide) (by decide) (by decide) (by decide)
  exact h

/-! ## The JSON cache file: `setupData` and the persist hook

```js
try {
  dataFile = JSON.parse(fs.readFileSync(path, 'utf-8'))
  dataFile = new Map(Object.entries(dataFile))
} catch {
  dataFile = new Map()
}
process.on('exit', () => {
  fs.writeFileSync(path, JSON.stringify(Object.fromEntries(dataFile), null, 2))
})
```

The built-ins `JSON.parse` and `JSON.stringify(x, null, 2)` are modelled
executably: a tokenizer plus a fueled token parser for `JSON.parse`
(numbers are kept as their lexeme — no cache file ever holds one — and
object members keep insertion order with JavaScript duplicate-key
semantics), and a printer for the two-space-indented form the exit hook
writes.  The file system is the input: `none` models a missing file. -/

/-- A JSON value as `JSON.parse` produces it. -/
inductive Json where
  | null
  | bool (b : Bool)
  | num (lexeme : String)
  | str (s : String)
  | arr (elems : List Json)
  | obj (members : List (String × Json))

/-- Lexical tokens of JSON text. -/
inductive JsonTok where
  | lbrace
  | rbrace
  | lbrack
  | rbrack
  | colon
  | comma
  | str (s : String)
  | num (lexeme : String)
  | tru
  | fls
  | nul
deriving Repr, DecidableEq

/-- JSON insignificant whitespace. -/
def isJsonWs (c : Char) : Bool :=
  c = ' ' || c = '\t' || c = '\n' || c = '\r'

/-- Characters a JSON number lexeme may contain. -/
def isNumChar (c : Char) : Bool :=
  c.isDigit || c = '-' || c = '+' || c = '.' || c = 'e' || c = 'E'

/-- The exponent tail of the JSON number grammar (empty, or `[eE][+-]?[0-9]+`). -/
def validExpTail : List Char → Bool
  | [] => true
  | c :: cs =>
    if c = 'e' ∨ c = 'E' then
      let cs2 := match cs with
        | d :: ds => if d = '+' ∨ d = '-' then ds else d :: ds
        | [] => []
      match cs2 with
      | [] => false
      | d :: ds => d.isDigit && (ds.dropWhile Char.isDigit).isEmpty
    else false

/-- The fraction-and-exponent tail of the JSON number grammar. -/
def validFracTail : List Char → Bool
  | [] => true
  | c :: cs =>
    if c = '.' then
      match cs with
      | [] => false
      | d :: ds => d.isDigit && validExpTail (ds.dropWhile Char.isDigit)
    else validExpTail (c :: cs)

/-- The JSON number grammar: `-? (0 | [1-9][0-9]*) frac? exp?`. -/
def validNumber (l : List Char) : Bool :=
  let l1 := match l with
    | '-' :: cs => cs
    | _ => l
  match l1 with
  | [] => false
  | '0' :: rest => validFracTail rest
  | c :: rest =>
    if c.isDigit then validFracTail (rest.dropWhile Char.isDigit) else false

/-- Hexadecimal digit and its value, for `\u` escapes. -/
def isHexDigit (c : Char) : Bool :=
  c.isDigit || ('a' ≤ c && c ≤ 'f') || ('A' ≤ c && c ≤ 'F')

def hexVal (c : Char) : Nat :=
  if c.isDigit then c.toNat - 48
  else if 'a' ≤ c && c ≤ 'f' then c.toNat - 87
  else c.toNat - 55

/-- Tokenizer state between two characters: top level; inside a string
literal (characters so far reversed in `acc`); right after a backslash;
inside a `\u` escape (hex digits so far in `got`); inside a keyword
(`true` / `false` / `null`, remaining expected characters in `expect`);
or inside a number lexeme (reversed in `acc`). -/
inductive TokMode where
  | top
  | instr (acc : List Char)
  | esc (acc : List Char)
  | hex (got : List Char) (acc : List Char)
  | keyword (expect : List Char) (emit : JsonTok)
  | innum (acc : List Char)

/-- One top-level character of JSON text, continuation style: `k`
tokenizes the rest of the input from a given state. -/
def tokStepTop (c : Char) (k : TokMode → Option (List JsonTok)) :
    Option (List JsonTok) :=
  if isJsonWs c then k .top
  else if c = '\x7b' then (k .top).map (fun ts => JsonTok.lbrace :: ts)
  else if c = '\x7d' then (k .top).map (fun ts => JsonTok.rbrace :: ts)
  else if c = '[' then (k .top).map (fun ts => JsonTok.lbrack :: ts)
  else if c = ']' then (k .top).map (fun ts => JsonTok.rbrack :: ts)
  else if c = ':' then (k .top).map (fun ts => JsonTok.colon :: ts)
  else if c = ',' then (k .top).map (fun ts => JsonTok.comma :: ts)
  else if c = '"' then k (.instr [])
  else if c = 't' then k (.keyword ['r', 'u', 'e'] .tru)
  else if c = 'f' then k (.keyword ['a', 'l', 's', 'e'] .fls)
  else if c = 'n' then k (.keyword ['u', 'l', 'l'] .nul)
  else if c.isDigit || c = '-' then k (.innum [c])
  else none

/-- One character of JSON text in any state, continuation style. -/
def tokStep (c : Char) (k : TokMode → Option (List JsonTok)) :
    TokMode → Option (List JsonTok)
  | .top => tokStepTop c k
  | .instr acc =>
    if c = '"' then (k .top).map (fun ts => JsonTok.str ⟨acc.reverse⟩ :: ts)
    else if c = '\\' then k (.esc acc)
    else if c.toNat < 32 then none
    else k (.instr (c :: acc))
  | .esc acc =>
    if c = '"' then k (.instr ('"' :: acc))
    else if c = '\\' then k (.instr ('\\' :: acc))
    else if c = '/' then k (.instr ('/' :: acc))
    else if c = 'b' then k (.instr ('\x08' :: acc))
    else if c = 'f' then k (.instr ('\x0c' :: acc))
    else if c = 'n' then k (.instr ('\n' :: acc))
    else if c = 'r' then k (.instr ('\r' :: acc))
    else if c = 't' then k (.instr ('\t' :: acc))
    else if c = 'u' then k (.hex [] acc)
    else none
  | .hex got acc =>
    if isHexDigit c then
      match got with
      | [a, b, c3] =>
        k (.instr (Char.ofNat (hexVal a * 4096 + hexVal b * 256 +
          hexVal c3 * 16 + hexVal c) :: acc))
      | _ => k (.hex (got ++ [c]) acc)
    else none
  | .keyword expect emit =>
    match expect with
    | e :: expect2 => if c = e then k (.keyword expect2 emit) else none
    | [] => (tokStepTop c k).map (fun ts => emit :: ts)
  | .innum acc =>
    if isNumChar c then k (.innum (c :: acc))
    else if validNumber acc.reverse then
      (tokStepTop c k).map (fun ts => JsonTok.num ⟨acc.reverse⟩ :: ts)
    else none

/-- End of input: which states complete into a token list. -/
def tokEnd : TokMode → Option (List JsonTok)
  | .top => some []
  | .instr _ => none
  | .esc _ => none
  | .hex _ _ => none
  | .keyword [] emit => some [emit]
  | .keyword (_ :: _) _ => none
  | .innum acc =>
    if validNumber acc.reverse then some [JsonTok.num ⟨acc.reverse⟩] else none

/-- The JSON tokenizer: fold the per-character state machine over the
input.  (Lone UTF-16 surrogates, which a Lean `Char` cannot hold, are the
only JavaScript strings out of the model's reach.) -/
def tok (l : List Char) (m : TokMode) : Option (List JsonTok) :=
  l.foldr tokStep tokEnd m

/-- The tokenizer from the top-level state. -/
def tokA (l : List Char) : Option (List JsonTok) :=
  tok l .top

/-- JavaScript object-literal duplicate-key semantics: assigning to an
existing key keeps its position and replaces the value, a new key is
appended. -/
def jsObjInsert (kvs : List (String × Json)) (k : String) (v : Json) :
    List (String × Json) :=
  if kvs.any (fun p => p.1 == k) then
    kvs.map (fun p => if p.1 == k then (p.1, v) else p)
  else kvs ++ [(k, v)]

/-- Rebuild a parsed member list with JavaScript duplicate-key semantics. -/
def jsDedup (kvs : List (String × Json)) : List (String × Json) :=
  kvs.foldl (fun acc p => jsObjInsert acc p.1 p.2) []

mutual

/-- Parse one JSON value from the token stream (fueled). -/
def parseVal : Nat → List JsonTok → Option (Json × List JsonTok)
  | 0, _ => none
  | _ + 1, [] => none
  | f + 1, t :: ts =>
    match t with
    | .str s => some (.str s, ts)
    | .num s => some (.num s, ts)
    | .tru => some (.bool true, ts)
    | .fls => some (.bool false, ts)
    | .nul => some (.null, ts)
    | .lbrace =>
      match ts with
      | .rbrace :: ts2 => some (.obj [], ts2)
      | _ => (parseMembers f ts).map (fun p => (.obj (jsDedup p.1), p.2))
    | .lbrack =>
      match ts with
      | .rbrack :: ts2 => some (.arr [], ts2)
      | _ => (parseElems f ts).map (fun p => (.arr p.1, p.2))
    | _ => none

/-- Parse the members of a non-empty object, consuming the closing brace. -/
def parseMembers : Nat → List JsonTok → Option (List (String × Json) × List JsonTok)
  | 0, _ => none
  | f + 1, ts =>
    match ts with
    | .str k :: .colon :: ts2 =>
      (parseVal f ts2).bind (fun p =>
        match p.2 with
        | .comma :: ts3 =>
          (parseMembers f ts3).map (fun q => ((k, p.1) :: q.1, q.2))
        | .rbrace :: ts3 => some ([(k, p.1)], ts3)
        | _ => none)
    | _ => none

/-- Parse the elements of a non-empty array, consuming the closing bracket. -/
def parseElems : Nat → List JsonTok → Option (List Json × List JsonTok)
  | 0, _ => none
  | f + 1, ts =>
    (parseVal f ts).bind (fun p =>
      match p.2 with
      | .comma :: ts2 => (parseElems f ts2).map (fun q => (p.1 :: q.1, q.2))
      | .rbrack :: ts2 => some ([p.1], ts2)
      | _ => none)

end

/-- `JSON.parse(raw)`: tokenize, parse one value, and require the whole
input to be consumed; `none` is the thrown `SyntaxError`. -/
def parseJSON (raw : String) : Option Json :=
  (tokA raw.data).bind (fun ts =>
    match parseVal (ts.length + 1) ts with
    | some (v, []) => some v
    | _ => none)

/-- `Object.entries(x)` for the possible results of `JSON.parse`:
objects yield their members, arrays and strings yield index-keyed
entries, primitives yield nothing.  (On `null` the JavaScript call
throws, but `setupData`'s `catch` turns that into the same empty map.) -/
def jsEntries : Json → List (String × Json)
  | .obj kvs => kvs
  | .arr xs => xs.enum.map (fun p => (toString p.1, p.2))
  | .str s => s.data.enum.map (fun p => (toString p.1, Json.str ⟨[p.2]⟩))
  | _ => []

/-- `setupData(path)`: the try/catch cache load.  The input is the file
system's answer: `none` models a missing/unreadable file (`readFileSync`
throws), `some raw` the file content. -/
def setupData (content : Option String) : List (String × Json) :=
  match content with
  | none => []
  | some raw =>
    match parseJSON raw with
    | none => []
    | some j => jsEntries j

/-- C4: loading yields the empty mapping — raising nothing — both when
the cache file is missing and when its content is not valid JSON. -/
theorem setupData_resilient (raw : String)
    (h : (parseJSON raw).isNone = true) :
    setupData none = [] ∧ setupData (some raw) = [] := by
  refine ⟨rfl, ?_⟩
  simp only [setupData]
  rw [Option.isNone_iff_eq_none.mp h]

/-- C4 witness: a concrete malformed cache file content. -/
theorem setupData_resilient_witness :
    (parseJSON "\x7b not json").isNone = true ∧
      setupData none = [] ∧ setupData (some "\x7b not json") = [] :=
  ⟨by decide, setupData_resilient "\x7b not json" (by decide)⟩

/-- Lower-case hexadecimal digit, as `Number.prototype.toString(16)`
renders it inside `JSON.stringify`'s `\u00XX` escapes. -/
def hexDigitChar (n : Nat) : Char :=
  if n < 10 then Char.ofNat (48 + n) else Char.ofNat (87 + n)

/-- `JSON.stringify`'s `QuoteJSONString` escaping of one character. -/
def escapeChar (c : Char) : List Char :=
  if c = '"' then ['\\', '"']
  else if c = '\\' then ['\\', '\\']
  else if c = '\x08' then ['\\', 'b']
  else if c = '\x0c' then ['\\', 'f']
  else if c = '\n' then ['\\', 'n']
  else if c = '\r' then ['\\', 'r']
  else if c = '\t' then ['\\', 't']
  else if c.toNat < 32 then
    ['\\', 'u', '0', '0', hexDigitChar (c.toNat / 16), hexDigitChar (c.toNat % 16)]
  else [c]

/-- A JSON string literal for `s`. -/
def quoteChars (s : String) : List Char :=
  '"' :: (s.data.flatMap escapeChar ++ ['"'])

def boolChars : Bool → List Char
  | true => ['t', 'r', 'u', 'e']
  | false => ['f', 'a', 'l', 's', 'e']

/-- The text the exit hook writes for one cache entry: two-space
indentation, exactly as `JSON.stringify(·, null, 2)` renders a nested
two-field object. -/
def entryChars (k : String) (e : TriageEntry) : List Char :=
  [' ', ' '] ++ quoteChars k ++ [':', ' ', '\x7b', '\n', ' ', ' ', ' ', ' '] ++
    quoteChars "message" ++ [':', ' '] ++ quoteChars e.message ++
    [',', '\n', ' ', ' ', ' ', ' '] ++ quoteChars "needsCherryPick" ++
    [':', ' '] ++ boolChars e.needsCherryPick ++ ['\n', ' ', ' ', '\x7d']

/-- Comma-then-newline separated concatenation. -/
def joinChars : List (List Char) → List Char
  | [] => []
  | [m] => m
  | m :: ms => m ++ (',' :: '\n' :: joinChars ms)

/-- `JSON.stringify(Object.fromEntries(dataFile), null, 2)`: the exact
text the process-exit hook persists for an entry-shaped cache map. -/
def persistChars (m : Cache) : List Char :=
  match m with
  | [] => ['\x7b', '\x7d']
  | _ => ['\x7b', '\n'] ++
      joinChars (m.map (fun p => entryChars p.1 p.2)) ++ ['\n', '\x7d']

def persistString (m : Cache) : String := ⟨persistChars m⟩

/-- The JSON value a cache entry denotes. -/
def entryToJson (e : TriageEntry) : Json :=
  .obj [("message", .str e.message), ("needsCherryPick", .bool e.needsCherryPick)]

/-- The token rendering of one serialized cache entry. -/
def entryToks (k : String) (e : TriageEntry) : List JsonTok :=
  [.str k, .colon, .lbrace, .str "message", .colon, .str e.message, .comma,
   .str "needsCherryPick", .colon,
   if e.needsCherryPick then JsonTok.tru else JsonTok.fls, .rbrace]

/-- Comma-separated concatenation of token runs. -/
def joinToks : List (List JsonTok) → List JsonTok
  | [] => []
  | [m] => m
  | m :: ms => m ++ (JsonTok.comma :: joinToks ms)

/-- The token stream of the persisted cache text. -/
def tokensOfCache (m : Cache) : List JsonTok :=
  match m with
  | [] => [.lbrace, .rbrace]
  | _ => .lbrace ::
      (joinToks (m.map (fun q => entryToks q.1 q.2)) ++ [JsonTok.rbrace])

theorem hexDigitChar_round :
    ∀ k, k < 16 → isHexDigit (hexDigitChar k) = true ∧ hexVal (hexDigitChar k) = k := by
  decide

theorem tok_top_space (l : List Char) : tok (' ' :: l) .top = tok l .top := by
  simp [tok, tokStep, tokStepTop, isJsonWs]

theorem tok_top_nl (l : List Char) : tok ('\n' :: l) .top = tok l .top := by
  simp [tok, tokStep, tokStepTop, isJsonWs]

theorem tok_top_lbrace (l : List Char) :
    tok ('\x7b' :: l) .top = (tok l .top).map (fun ts => JsonTok.lbrace :: ts) := by
  simp [tok, tokStep, tokStepTop, isJsonWs]

theorem tok_top_rbrace (l : List Char) :
    tok ('\x7d' :: l) .top = (tok l .top).map (fun ts => JsonTok.rbrace :: ts) := by
  simp [tok, tokStep, tokStepTop, isJsonWs]

theorem tok_top_colon (l : List Char) :
    tok (':' :: l) .top = (tok l .top).map (fun ts => JsonTok.colon :: ts) := by
  simp [tok, tokStep, tokStepTop, isJsonWs]

theorem tok_top_comma (l : List Char) :
    tok (',' :: l) .top = (tok l .top).map (fun ts => JsonTok.comma :: ts) := by
  simp [tok, tokStep, tokStepTop, isJsonWs]

theorem tok_keyword_done (l : List Char) (e : JsonTok) (c : Char) :
    tok (c :: l) (.keyword [] e) =
      (tok (c :: l) .top).map (fun ts => e :: ts) := by
  simp [tok, tokStep]

theorem tok_top_true (l : List Char) :
    tok ('t' :: 'r' :: 'u' :: 'e' :: l) .top =
      (tok l (.keyword [] JsonTok.tru)) := by
  simp [tok, tokStep, tokStepTop, isJsonWs]

theorem tok_top_false (l : List Char) :
    tok ('f' :: 'a' :: 'l' :: 's' :: 'e' :: l) .top =
      (tok l (.keyword [] JsonTok.fls)) := by
  simp [tok, tokStep, tokStepTop, isJsonWs]

theorem tok_instr_close (l acc : List Char) :
    tok ('"' :: l) (.instr acc) =
      (tok l .top).map (fun ts => JsonTok.str ⟨acc.reverse⟩ :: ts) := by
  simp [tok, tokStep]

theorem tok_instr_other (c : Char) (l acc : List Char) (h1 : ¬c = '"')
    (h2 : ¬c = '\\') (h3 : ¬c.toNat < 32) :
    tok (c :: l) (.instr acc) = tok l (.instr (c :: acc)) := by
  simp [tok, tokStep, h1, h2, h3]

theorem tok_instr_hex (h1 h2 : Char) (l acc : List Char)
    (hh1 : isHexDigit h1 = true) (hh2 : isHexDigit h2 = true) :
    tok ('\\' :: 'u' :: '0' :: '0' :: h1 :: h2 :: l) (.instr acc) =
      tok l (.instr (Char.ofNat (hexVal '0' * 4096 + hexVal '0' * 256 +
        hexVal h1 * 16 + hexVal h2) :: acc)) := by
  simp [tok, tokStep, hh1, hh2, show isHexDigit '0' = true from by decide]

/-- Tokenizing an escaped string body: the escapes fold back to the
original characters. -/
theorem tok_instr_escaped :
    ∀ (l rest acc : List Char),
      tok (l.flatMap escapeChar ++ ('"' :: rest)) (.instr acc) =
        (tok rest .top).map (fun ts => JsonTok.str ⟨acc.reverse ++ l⟩ :: ts) := by
  intro l
  induction l with
  | nil =>
    intro rest acc
    simp [tok_instr_close]
  | cons c l ih =>
    intro rest acc
    rw [List.flatMap_cons, List.append_assoc]
    by_cases hq : c = '"'
    · rw [show escapeChar c = ['\\', '"'] by simp [escapeChar, hq]]
      rw [show (['\\', '"'] : List Char) ++
          (l.flatMap escapeChar ++ ('"' :: rest)) =
          '\\' :: '"' :: (l.flatMap escapeChar ++ ('"' :: rest)) from rfl]
      rw [show ∀ t a, tok ('\\' :: '"' :: t) (.instr a) =
          tok t (.instr ('"' :: a)) from fun t a => by simp [tok, tokStep]]
      rw [ih rest ('"' :: acc)]
      simp [hq]
    · by_cases hb : c = '\\'
      · rw [show escapeChar c = ['\\', '\\'] by simp [escapeChar, hq, hb]]
        rw [show (['\\', '\\'] : List Char) ++
            (l.flatMap escapeChar ++ ('"' :: rest)) =
            '\\' :: '\\' :: (l.flatMap escapeChar ++ ('"' :: rest)) from rfl]
        rw [show ∀ t a, tok ('\\' :: '\\' :: t) (.instr a) =
            tok t (.instr ('\\' :: a)) from fun t a => by simp [tok, tokStep]]
        rw [ih rest ('\\' :: acc)]
        simp [hb]
      · by_cases h3 : c = '\x08'
        · rw [show escapeChar c = ['\\', 'b'] by simp [escapeChar, hq, hb, h3]]
          rw [show (['\\', 'b'] : List Char) ++
              (l.flatMap escapeChar ++ ('"' :: rest)) =
              '\\' :: 'b' :: (l.flatMap escapeChar ++ ('"' :: rest)) from rfl]
          rw [show ∀ t a, tok ('\\' :: 'b' :: t) (.instr a) =
              tok t (.instr ('\x08' :: a)) from fun t a => by simp [tok, tokStep]]
          rw [ih rest ('\x08' :: acc)]
          simp [h3]
        · by_cases h4 : c = '\x0c'
          · rw [show escapeChar c = ['\\', 'f'] by
              simp [escapeChar, hq, hb, h3, h4]]
            rw [show (['\\', 'f'] : List Char) ++
                (l.flatMap escapeChar ++ ('"' :: rest)) =
                '\\' :: 'f' :: (l.flatMap escapeChar ++ ('"' :: rest)) from rfl]
            rw [show ∀ t a, tok ('\\' :: 'f' :: t) (.instr a) =
                tok t (.instr ('\x0c' :: a)) from fun t a => by simp [tok, tokStep]]
            rw [ih rest ('\x0c' :: acc)]
            simp [h4]
          · by_cases h5 : c = '\n'
            · rw [show escapeChar c = ['\\', 'n'] by
                simp [escapeChar, hq, hb, h3, h4, h5]]
              rw [show (['\\', 'n'] : List Char) ++
                  (l.flatMap escapeChar ++ ('"' :: rest)) =
                  '\\' :: 'n' :: (l.flatMap escapeChar ++ ('"' :: rest)) from rfl]
              rw [show ∀ t a, tok ('\\' :: 'n' :: t) (.instr a) =
                  tok t (.instr ('\n' :: a)) from fun t a => by simp [tok, tokStep]]
              rw [ih rest ('\n' :: acc)]
              simp [h5]
            · by_cases h6 : c = '\r'
              · rw [show escapeChar c = ['\\', 'r'] by
                  simp [escapeChar, hq, hb, h3, h4, h5, h6]]
                rw [show (['\\', 'r'] : List Char) ++
                    (l.flatMap escapeChar ++ ('"' :: rest)) =
                    '\\' :: 'r' :: (l.flatMap escapeChar ++ ('"' :: rest)) from rfl]
                rw [show ∀ t a, tok ('\\' :: 'r' :: t) (.instr a) =
                    tok t (.instr ('\r' :: a)) from fun t a => by simp [tok, tokStep]]
                rw [ih rest ('\r' :: acc)]
                simp [h6]
              · by_cases h7 : c = '\t'
                · rw [show escapeChar c = ['\\', 't'] by
                    simp [escapeChar, hq, hb, h3, h4, h5, h6, h7]]
                  rw [show (['\\', 't'] : List Char) ++
                      (l.flatMap escapeChar ++ ('"' :: rest)) =
                      '\\' :: 't' :: (l.flatMap escapeChar ++ ('"' :: rest)) from rfl]
                  rw [show ∀ t a, tok ('\\' :: 't' :: t) (.instr a) =
                      tok t (.instr ('\t' :: a)) from fun t a => by simp [tok, tokStep]]
                  rw [ih rest ('\t' :: acc)]
                  simp [h7]
                · by_cases h8 : c.toNat < 32
                  · rw [show escapeChar c =
                        ['\\', 'u', '0', '0', hexDigitChar (c.toNat / 16),
                          hexDigitChar (c.toNat % 16)] by
                      simp [escapeChar, hq, hb, h3, h4, h5, h6, h7, h8]]
                    have hd1 := hexDigitChar_round (c.toNat / 16) (by omega)
                    have hd2 := hexDigitChar_round (c.toNat % 16)
                      (Nat.mod_lt _ (by omega))
                    rw [show (['\\', 'u', '0', '0', hexDigitChar (c.toNat / 16),
                        hexDigitChar (c.toNat % 16)] : List Char) ++
                        (l.flatMap escapeChar ++ ('"' :: rest)) =
                        '\\' :: 'u' :: '0' :: '0' :: hexDigitChar (c.toNat / 16) ::
                          hexDigitChar (c.toNat % 16) ::
                          (l.flatMap escapeChar ++ ('"' :: rest)) from rfl]
                    rw [tok_instr_hex _ _ _ _ hd1.1 hd2.1]
                    have hv : hexVal '0' * 4096 + hexVal '0' * 256 +
                        hexVal (hexDigitChar (c.toNat / 16)) * 16 +
                        hexVal (hexDigitChar (c.toNat % 16)) = c.toNat := by
                      rw [hd1.2, hd2.2]
                      have := Nat.div_add_mod c.toNat 16
                      have h0 : hexVal '0' = 0 := by decide
                      rw [h0]
                      omega
                    rw [hv, Char.ofNat_toNat]
                    rw [ih rest (c :: acc)]
                    simp
                  · rw [show escapeChar c = [c] by
                      simp [escapeChar, hq, hb, h3, h4, h5, h6, h7, h8]]
                    rw [show ([c] : List Char) ++
                        (l.flatMap escapeChar ++ ('"' :: rest)) =
                        c :: (l.flatMap escapeChar ++ ('"' :: rest)) from rfl]
                    rw [tok_instr_other c _ _ hq hb h8]
                    rw [ih rest (c :: acc)]
                    simp

/-- Tokenizing a serialized string literal yields one `str` token. -/
theorem tok_top_quoted (s : String) (rest : List Char) :
    tok (quoteChars s ++ rest) .top =
      (tok rest .top).map (fun ts => JsonTok.str s :: ts) := by
  unfold quoteChars
  rw [List.cons_append]
  rw [show tok ('"' :: (s.data.flatMap escapeChar ++ ['"'] ++ rest)) .top =
      tok (s.data.flatMap escapeChar ++ ['"'] ++ rest) (.instr []) from by
    simp [tok, tokStep, tokStepTop, isJsonWs]]
  rw [List.append_assoc]
  rw [show (['"'] : List Char) ++ rest = '"' :: rest from rfl]
  rw [tok_instr_escaped]
  rfl

/-- Tokenizing one serialized cache entry. -/
theorem tok_top_entry (k : String) (e : TriageEntry) (rest : List Char) :
    tok (entryChars k e ++ rest) .top =
      (tok rest .top).map (fun ts => entryToks k e ++ ts) := by
  unfold entryChars entryToks
  cases hb : e.needsCherryPick
  · simp only [boolChars, List.append_assoc, List.cons_append, List.nil_append]
    rw [tok_top_space, tok_top_space, tok_top_quoted, tok_top_colon,
      tok_top_space, tok_top_lbrace, tok_top_nl, tok_top_space, tok_top_space,
      tok_top_space, tok_top_space, tok_top_quoted, tok_top_colon,
      tok_top_space, tok_top_quoted, tok_top_comma, tok_top_nl, tok_top_space,
      tok_top_space, tok_top_space, tok_top_space, tok_top_quoted,
      tok_top_colon, tok_top_space, tok_top_false, tok_keyword_done,
      tok_top_nl, tok_top_space, tok_top_space, tok_top_rbrace]
    simp only [Option.map_map]
    congr 1
  · simp only [boolChars, List.append_assoc, List.cons_append, List.nil_append]
    rw [tok_top_space, tok_top_space, tok_top_quoted, tok_top_colon,
      tok_top_space, tok_top_lbrace, tok_top_nl, tok_top_space, tok_top_space,
      tok_top_space, tok_top_space, tok_top_quoted, tok_top_colon,
      tok_top_space, tok_top_quoted, tok_top_comma, tok_top_nl, tok_top_space,
      tok_top_space, tok_top_space, tok_top_space, tok_top_quoted,
      tok_top_colon, tok_top_space, tok_top_true, tok_keyword_done,
      tok_top_nl, tok_top_space, tok_top_space, tok_top_rbrace]
    simp only [Option.map_map]
    congr 1

/-- Tokenizing the comma-separated member list. -/
theorem tok_top_members :
    ∀ (m : Cache) (p : String × TriageEntry) (rest : List Char),
      tok (joinChars ((p :: m).map (fun q => entryChars q.1 q.2)) ++ rest) .top =
        (tok rest .top).map
          (fun ts => joinToks ((p :: m).map (fun q => entryToks q.1 q.2)) ++ ts) := by
  intro m
  induction m with
  | nil =>
    intro p rest
    simp only [List.map_cons, List.map_nil, joinChars, joinToks]
    exact tok_top_entry p.1 p.2 rest
  | cons q m ih =>
    intro p rest
    simp only [List.map_cons, joinChars, joinToks, List.append_assoc,
      List.cons_append]
    rw [tok_top_entry, tok_top_comma, tok_top_nl]
    have hih := ih q rest
    simp only [List.map_cons, joinChars, joinToks] at hih
    rw [hih]
    simp only [Option.map_map]
    congr 1

/-- Tokenizing the whole persisted cache text. -/
theorem tok_persist (m : Cache) :
    tokA (persistChars m) = some (tokensOfCache m) := by
  cases m with
  | nil => rfl
  | cons p m2 =>
    unfold tokA persistChars tokensOfCache
    simp only [List.cons_append, List.nil_append]
    rw [tok_top_lbrace, tok_top_nl]
    rw [tok_top_members m2 p ['\n', '\x7d']]
    rw [show tok ['\n', '\x7d'] .top = some [JsonTok.rbrace] from rfl]
    rfl

theorem joinToks_entry_length :
    ∀ (m : Cache) (p : String × TriageEntry),
      (joinToks ((p :: m).map (fun q => entryToks q.1 q.2))).length =
        11 + 12 * m.length := by
  intro m
  induction m with
  | nil => intro p; rfl
  | cons q m2 ih =>
    intro p
    simp only [List.map_cons, joinToks, List.length_append, List.length_cons]
    have := ih q
    simp only [List.map_cons] at this
    rw [this]
    simp [entryToks, List.length_cons]
    omega

theorem parseVal_str (f : Nat) (s : String) (ts : List JsonTok) :
    parseVal (f + 1) (JsonTok.str s :: ts) = some (.str s, ts) := by
  simp [parseVal]

theorem parseVal_tru (f : Nat) (ts : List JsonTok) :
    parseVal (f + 1) (JsonTok.tru :: ts) = some (.bool true, ts) := by
  simp [parseVal]

theorem parseVal_fls (f : Nat) (ts : List JsonTok) :
    parseVal (f + 1) (JsonTok.fls :: ts) = some (.bool false, ts) := by
  simp [parseVal]

theorem parseVal_obj (f : Nat) (k : String) (ts : List JsonTok) :
    parseVal (f + 1) (JsonTok.lbrace :: JsonTok.str k :: ts) =
      (parseMembers f (JsonTok.str k :: ts)).map
        (fun p => (Json.obj (jsDedup p.1), p.2)) := by
  simp [parseVal]

theorem parseMembers_step (f : Nat) (k : String) (ts : List JsonTok) :
    parseMembers (f + 1) (JsonTok.str k :: JsonTok.colon :: ts) =
      (parseVal f ts).bind (fun p =>
        match p.2 with
        | JsonTok.comma :: ts3 =>
          (parseMembers f ts3).map (fun q => ((k, p.1) :: q.1, q.2))
        | JsonTok.rbrace :: ts3 => some ([(k, p.1)], ts3)
        | _ => none) := by
  simp [parseMembers]

/-- Parsing the token run of one serialized entry value. -/
theorem parseVal_entry :
    ∀ (fuel : Nat) (e : TriageEntry) (rest : List JsonTok), fuel ≥ 4 →
      parseVal fuel
        (JsonTok.lbrace :: JsonTok.str "message" :: JsonTok.colon ::
          JsonTok.str e.message :: JsonTok.comma ::
          JsonTok.str "needsCherryPick" :: JsonTok.colon ::
          (if e.needsCherryPick then JsonTok.tru else JsonTok.fls) ::
          JsonTok.rbrace :: rest) =
        some (entryToJson e, rest) := by
  intro fuel e rest hf
  obtain ⟨f1, rfl⟩ : ∃ f1, fuel = f1 + 1 := ⟨fuel - 1, by omega⟩
  obtain ⟨f2, rfl⟩ : ∃ f2, f1 = f2 + 1 := ⟨f1 - 1, by omega⟩
  obtain ⟨f3, rfl⟩ : ∃ f3, f2 = f3 + 1 := ⟨f2 - 1, by omega⟩
  obtain ⟨f4, rfl⟩ : ∃ f4, f3 = f4 + 1 := ⟨f3 - 1, by omega⟩
  rw [parseVal_obj, parseMembers_step, parseVal_str]
  simp only [Option.bind]
  rw [parseMembers_step]
  cases hb : e.needsCherryPick
  · rw [show (if false = true then JsonTok.tru else JsonTok.fls) =
        JsonTok.fls from rfl]
    rw [parseVal_fls]
    simp only [Option.bind, Option.map]
    simp only [entryToJson, hb]
    rfl
  · rw [show (if true = true then JsonTok.tru else JsonTok.fls) =
        JsonTok.tru from rfl]
    rw [parseVal_tru]
    simp only [Option.bind, Option.map]
    simp only [entryToJson, hb]
    rfl

/-- Parsing the member runs of the persisted cache text. -/
theorem parseMembers_cache :
    ∀ (m : Cache) (p : String × TriageEntry) (fuel : Nat)
      (rest : List JsonTok), fuel ≥ m.length + 5 →
      parseMembers fuel
        (joinToks ((p :: m).map (fun q => entryToks q.1 q.2)) ++
          JsonTok.rbrace :: rest) =
        some ((p :: m).map (fun q => (q.1, entryToJson q.2)), rest) := by
  intro m
  induction m with
  | nil =>
    intro p fuel rest hf
    obtain ⟨f1, rfl⟩ : ∃ f1, fuel = f1 + 1 := ⟨fuel - 1, by omega⟩
    simp only [List.map_cons, List.map_nil, joinToks, entryToks,
      List.cons_append, List.nil_append]
    rw [parseMembers_step]
    rw [parseVal_entry f1 p.2 (JsonTok.rbrace :: rest) (by omega)]
    rfl
  | cons q m2 ih =>
    intro p fuel rest hf
    obtain ⟨f1, rfl⟩ : ∃ f1, fuel = f1 + 1 := ⟨fuel - 1, by omega⟩
    simp only [List.map_cons, joinToks, entryToks, List.cons_append,
      List.append_assoc, List.nil_append]
    rw [parseMembers_step]
    rw [parseVal_entry f1 p.2 _ (by simp only [List.length_cons] at hf; omega)]
    simp only [Option.bind]
    have hih := ih q f1 rest (by simp only [List.length_cons] at hf; omega)
    simp only [List.map_cons, joinToks, entryToks] at hih ⊢
    rw [hih]
    rfl

/-- `JSON.parse` recovers the member list the hook serialized (up to
JavaScript duplicate-key handling). -/
theorem parseJSON_persist (m : Cache) :
    parseJSON (persistString m) =
      some (.obj (jsDedup (m.map (fun q => (q.1, entryToJson q.2))))) := by
  cases m with
  | nil => rfl
  | cons p m2 =>
    unfold parseJSON persistString
    rw [show (⟨persistChars (p :: m2)⟩ : String).data = persistChars (p :: m2)
      from rfl]
    rw [tok_persist (p :: m2)]
    simp only [Option.bind]
    have hhead : ∃ tail, joinToks ((p :: m2).map (fun q => entryToks q.1 q.2)) =
        JsonTok.str p.1 :: JsonTok.colon :: tail := by
      cases m2 with
      | nil =>
        exact ⟨[JsonTok.lbrace, JsonTok.str "message", JsonTok.colon,
          JsonTok.str p.2.message, JsonTok.comma, JsonTok.str "needsCherryPick",
          JsonTok.colon,
          if p.2.needsCherryPick then JsonTok.tru else JsonTok.fls,
          JsonTok.rbrace], by simp [joinToks, entryToks]⟩
      | cons q2 m3 =>
        exact ⟨[JsonTok.lbrace, JsonTok.str "message", JsonTok.colon,
          JsonTok.str p.2.message, JsonTok.comma, JsonTok.str "needsCherryPick",
          JsonTok.colon,
          if p.2.needsCherryPick then JsonTok.tru else JsonTok.fls,
          JsonTok.rbrace] ++ (JsonTok.comma ::
            joinToks ((q2 :: m3).map (fun q => entryToks q.1 q.2))),
          by simp [joinToks, entryToks]⟩
    obtain ⟨tail, htail⟩ := hhead
    have hlen : (tokensOfCache (p :: m2)).length = 13 + 12 * m2.length := by
      unfold tokensOfCache
      simp only [List.length_cons, List.length_append, List.length_cons,
        List.length_nil]
      rw [joinToks_entry_length m2 p]
      omega
    have htl : tail.length = 9 + 12 * m2.length := by
      have hjl := joinToks_entry_length m2 p
      rw [htail] at hjl
      simp only [List.length_cons] at hjl
      omega
    have hparse : parseVal ((tokensOfCache (p :: m2)).length + 1)
        (tokensOfCache (p :: m2)) =
        some (.obj (jsDedup ((p :: m2).map (fun q => (q.1, entryToJson q.2)))),
          []) := by
      unfold tokensOfCache
      rw [htail]
      simp only [List.cons_append]
      rw [parseVal_obj]
      have hback : (JsonTok.str p.1 :: JsonTok.colon ::
          (tail ++ [JsonTok.rbrace])) =
          joinToks ((p :: m2).map (fun q => entryToks q.1 q.2)) ++
            JsonTok.rbrace :: [] := by
        rw [htail]
        simp
      rw [hback]
      rw [parseMembers_cache m2 p _ [] (by
        simp only [List.length_cons, List.length_append, List.length_nil,
          joinToks_entry_length m2 p, htl]
        omega)]
      rfl
    rw [hparse]

theorem jsObjInsert_new (kvs : List (String × Json)) (k : String) (v : Json)
    (h : ∀ p ∈ kvs, p.1 ≠ k) : jsObjInsert kvs k v = kvs ++ [(k, v)] := by
  unfold jsObjInsert
  rw [if_neg]
  simp only [List.any_eq_true, not_exists]
  intro p
  intro hcontra
  exact absurd (by simpa using hcontra.2) (h p hcontra.1)

theorem jsDedup_go :
    ∀ (kvs acc : List (String × Json)),
      ((acc ++ kvs).map Prod.fst).Nodup →
      kvs.foldl (fun acc p => jsObjInsert acc p.1 p.2) acc = acc ++ kvs := by
  intro kvs
  induction kvs with
  | nil =>
    intro acc _
    simp
  | cons kv tl ih =>
    intro acc hnd
    rw [List.foldl_cons]
    have hkeys : (acc.map Prod.fst ++ kv.1 :: tl.map Prod.fst).Nodup := by
      simpa using hnd
    have hnew : ∀ p ∈ acc, p.1 ≠ kv.1 := by
      intro p hp hcontra
      have hdis := (List.nodup_append.mp hkeys).2.2
      exact hdis (List.mem_map_of_mem Prod.fst hp)
        (hcontra ▸ List.mem_cons_self kv.1 (tl.map Prod.fst))
    rw [jsObjInsert_new acc kv.1 kv.2 hnew]
    rw [show ((kv.1, kv.2) : String × Json) = kv from rfl]
    rw [ih (acc ++ [kv]) (by
      rw [List.append_assoc]
      simpa using hnd)]
    rw [List.append_assoc]
    rfl

/-- With no duplicate keys, JavaScript object construction keeps the
member list as parsed. -/
theorem jsDedup_eq_self (kvs : List (String × Json))
    (h : (kvs.map Prod.fst).Nodup) : jsDedup kvs = kvs := by
  unfold jsDedup
  have := jsDedup_go kvs [] (by simpa using h)
  simpa using this

/-- C5: persisting a cache mapping through the process-exit hook's
`JSON.stringify(Object.fromEntries(·), null, 2)` and loading the
serialized text back with `setupData` reproduces a mapping equal to the
original: the same keys in the same order, each carrying the JSON image
of its original entry — and that image determines the entry
(`entryToJson` is injective). -/
theorem setupData_persist_roundtrip (m : Cache)
    (hnd : (m.map Prod.fst).Nodup) :
    setupData (some (persistString m)) =
      m.map (fun p => (p.1, entryToJson p.2)) ∧
    Function.Injective entryToJson := by
  constructor
  · simp only [setupData]
    rw [parseJSON_persist m]
    have hkeys : ((m.map (fun q => (q.1, entryToJson q.2))).map Prod.fst).Nodup := by
      rw [List.map_map]
      simpa [Function.comp] using hnd
    rw [jsDedup_eq_self _ hkeys]
    rfl
  · intro e1 e2 h
    cases e1
    cases e2
    simp only [entryToJson, Json.obj.injEq, List.cons.injEq, Prod.mk.injEq,
      Json.str.injEq, Json.bool.injEq, and_true, true_and] at h
    simp [h.1, h.2]

/-- C5 witness: a concrete two-entry cache survives the round trip. -/
theorem setupData_persist_roundtrip_witness :
    setupData (some (persistString
        [("abc123456", ⟨"fix: x", true⟩), ("def789012", ⟨"fix: [y]", false⟩)])) =
      ([("abc123456", ⟨"fix: x", true⟩),
        ("def789012", ⟨"fix: [y]", false⟩)] : Cache).map
        (fun p => (p.1, entryToJson p.2)) ∧
    Function.Injective entryToJson :=
  setupData_persist_roundtrip
    [("abc123456", ⟨"fix: x", true⟩), ("def789012", ⟨"fix: [y]", false⟩)]
    (by decide)

end Redwood
